import Mathlib

/-!
Verification of the build-orchestration utilities of `hatch_jupyter_builder`
(`hatch_jupyter_builder/utils.py`) against its design document.

The filesystem is modelled as a finite snapshot: a list of files, each a
path (a list of name segments) paired with an integer modification time,
plus a list of directory paths that exist.  Modification times are compared
but never computed with, so integers faithfully capture the order structure
of the floating-point `st_mtime` values the code reads.

Paths are absolute segment lists; `Path(p) / "x"` becomes `p ++ ["x"]`.
-/

set_option autoImplicit false

/-- A filesystem snapshot: files (path segments with a modification time)
and the directories that exist (including empty ones). -/
structure FS where
  files : List (List String × Int)
  dirs : List (List String)
deriving DecidableEq

/-- `Path(p).is_file()`. -/
def FS.isFile (fs : FS) (p : List String) : Bool :=
  fs.files.any (fun f => f.1 == p)

/-- `Path(p).stat().st_mtime` (meaningful only when `p` is a file). -/
def FS.mtimeOf (fs : FS) (p : List String) : Int :=
  match fs.files.find? (fun f => f.1 == p) with
  | some f => f.2
  | none => 0

/-- `Path(p).exists()`: `p` is a directory or a file of the snapshot. -/
def FS.pathExists (fs : FS) (p : List String) : Bool :=
  fs.dirs.any (fun d => d == p) || fs.isFile p

/-- The files lying strictly below `p` (their paths extend `p`). -/
def FS.filesUnder (fs : FS) (p : List String) : List (List String × Int) :=
  fs.files.filter (fun f => p.isPrefixOf f.1 && !(f.1 == p))

/-- The modification times produced by `os.walk(p)`: all files strictly
below `p` when `p` is a directory, nothing when `p` is a file. -/
def FS.walkFiles (fs : FS) (p : List String) : List Int :=
  if fs.isFile p then [] else (fs.filesUnder p).map (fun f => f.2)

/-- `utils.mtime`: shorthand for the stat mtime. -/
def mtime (fs : FS) (p : List String) : Int :=
  fs.mtimeOf p

/-- One step of the accumulator update in `recursive_mtime`, including the
Python truthiness quirk `(current_extreme or mt)`: a zero accumulator is
replaced by the candidate before the comparison. -/
def extremeStep (newest : Bool) (cur mt : Int) : Int :=
  match newest with
  | true => if mt ≥ (if cur = 0 then mt else cur) then mt else cur
  | false => if mt ≤ (if cur = 0 then mt else cur) then mt else cur

/-- `utils.recursive_mtime`: newest (or oldest) mtime of all files in the
tree below `path`, starting the accumulator at `-1.0`. -/
def recursive_mtime (fs : FS) (path : List String) (newest : Bool) : Int :=
  if fs.isFile path then mtime fs path
  else (fs.walkFiles path).foldl (extremeStep newest) (-1)

/-- `utils.compare_recursive_mtime`: does some file of the tree at `path`
(including `path` itself when it is a file) have an mtime beyond `cutoff`? -/
def compare_recursive_mtime (fs : FS) (path : List String) (cutoff : Int)
    (newest : Bool) : Bool :=
  (fs.isFile path &&
    (if newest then decide (mtime fs path > cutoff)
     else decide (mtime fs path < cutoff)))
  || (fs.walkFiles path).any (fun mt =>
      if newest then decide (mt > cutoff) else decide (mt < cutoff))

/-- `utils.is_stale`.  The Python line `recursive_mtime(target) or 0` maps a
zero result to `0` and keeps any other value, hence the inner conditional. -/
def is_stale (fs : FS) (target source : List String) : Bool :=
  if !(fs.pathExists source) then false
  else if !(fs.pathExists target) then true
  else
    let r := recursive_mtime fs target true
    let target_mtime : Int := if r = 0 then 0 else r
    compare_recursive_mtime fs source target_mtime true

/-- Specification-side notion: the modification times of every file in the
tree rooted at `p` (the file itself when `p` is a file, otherwise all files
below the directory `p`). -/
def treeMtimes (fs : FS) (p : List String) : List Int :=
  if fs.isFile p then [mtime fs p] else fs.walkFiles p

/-! ### Auxiliary lemmas on the mtime fold -/

lemma extremeStep_eq_max (cur mt : Int) (hmt : 0 ≤ mt) :
    extremeStep true cur mt = max cur mt := by
  show (if mt ≥ (if cur = 0 then mt else cur) then mt else cur) = max cur mt
  by_cases h0 : cur = 0
  · subst h0
    rw [if_pos rfl, if_pos le_rfl, max_eq_right hmt]
  · rw [if_neg h0]
    by_cases hle : cur ≤ mt
    · rw [if_pos hle, max_eq_right hle]
    · rw [if_neg hle, max_eq_left (le_of_not_le hle)]

lemma foldl_extremeStep_eq_max :
    ∀ (l : List Int), (∀ x ∈ l, 0 ≤ x) → ∀ init : Int,
      l.foldl (extremeStep true) init = l.foldl max init := by
  intro l
  induction l with
  | nil => intro _ init; rfl
  | cons x t ih =>
    intro hl init
    have hx : 0 ≤ x := hl x (List.mem_cons_self x t)
    have ht : ∀ y ∈ t, 0 ≤ y := fun y hy => hl y (List.mem_cons_of_mem x hy)
    simp only [List.foldl_cons, extremeStep_eq_max init x hx]
    exact ih ht (max init x)

lemma foldl_max_eq_of_forall_le :
    ∀ (l : List Int) (init : Int), (∀ x ∈ l, x ≤ init) →
      l.foldl max init = init := by
  intro l
  induction l with
  | nil => intro _ _; rfl
  | cons x t ih =>
    intro init h
    have hx : x ≤ init := h x (List.mem_cons_self x t)
    simp only [List.foldl_cons, max_eq_left hx]
    exact ih init (fun y hy => h y (List.mem_cons_of_mem x hy))

lemma foldl_max_eq_of_mem_max :
    ∀ (l : List Int) (init M : Int), init ≤ M → M ∈ l →
      (∀ x ∈ l, x ≤ M) → l.foldl max init = M := by
  intro l
  induction l with
  | nil => intro _ _ _ hM _; exact absurd hM (List.not_mem_nil _)
  | cons x t ih =>
    intro init M hinit hM hle
    have hx : x ≤ M := hle x (List.mem_cons_self x t)
    have ht : ∀ y ∈ t, y ≤ M := fun y hy => hle y (List.mem_cons_of_mem x hy)
    simp only [List.foldl_cons]
    rcases List.mem_cons.mp hM with rfl | hMt
    · rw [max_eq_right hinit]
      exact foldl_max_eq_of_forall_le t M ht
    · exact ih (max init x) M (max_le hinit hx) hMt ht

lemma walkFiles_nonneg (fs : FS) (p : List String)
    (hpos : ∀ f ∈ fs.files, 0 ≤ f.2) :
    ∀ m ∈ fs.walkFiles p, 0 ≤ m := by
  intro m hm
  unfold FS.walkFiles at hm
  by_cases hf : fs.isFile p = true
  · rw [if_pos hf] at hm
    exact absurd hm (List.not_mem_nil _)
  · rw [if_neg hf] at hm
    rcases List.mem_map.mp hm with ⟨f, hfmem, rfl⟩
    unfold FS.filesUnder at hfmem
    exact hpos f (List.mem_filter.mp hfmem).1

lemma treeMtimes_nonneg (fs : FS) (p : List String)
    (hpos : ∀ f ∈ fs.files, 0 ≤ f.2) :
    ∀ m ∈ treeMtimes fs p, 0 ≤ m := by
  intro m hm
  unfold treeMtimes at hm
  by_cases hf : fs.isFile p = true
  · rw [if_pos hf] at hm
    rcases List.mem_singleton.mp hm with rfl
    unfold mtime FS.mtimeOf
    cases hfind : fs.files.find? (fun f => f.1 == p) with
    | none => exact le_refl 0
    | some f => exact hpos f (List.mem_of_find?_eq_some hfind)
  · rw [if_neg hf] at hm
    exact walkFiles_nonneg fs p hpos m hm

lemma recursive_mtime_eq_max (fs : FS) (p : List String) (M : Int)
    (hpos : ∀ f ∈ fs.files, 0 ≤ f.2)
    (hmem : M ∈ treeMtimes fs p) (hmax : ∀ x ∈ treeMtimes fs p, x ≤ M) :
    recursive_mtime fs p true = M := by
  unfold recursive_mtime
  unfold treeMtimes at hmem hmax
  by_cases hf : fs.isFile p = true
  · rw [if_pos hf] at hmem ⊢
    exact (List.mem_singleton.mp hmem).symm
  · rw [if_neg hf] at hmem hmax ⊢
    have hnn : ∀ x ∈ fs.walkFiles p, 0 ≤ x := walkFiles_nonneg fs p hpos
    rw [foldl_extremeStep_eq_max _ hnn (-1)]
    have hM0 : (0 : Int) ≤ M := hnn M hmem
    exact foldl_max_eq_of_mem_max _ (-1) M (by omega) hmem hmax

lemma compare_recursive_mtime_iff (fs : FS) (p : List String) (cutoff : Int) :
    compare_recursive_mtime fs p cutoff true = true ↔
      ∃ m ∈ treeMtimes fs p, cutoff < m := by
  unfold compare_recursive_mtime treeMtimes
  by_cases hf : fs.isFile p = true
  · have hw : fs.walkFiles p = [] := by
      unfold FS.walkFiles; rw [if_pos hf]
    rw [hf, hw]
    simp
  · rw [if_neg hf]
    have hf2 : fs.isFile p = false := Bool.not_eq_true _ |>.mp hf
    rw [hf2]
    simp [List.any_eq_true]

/-! ### Staleness claims -/

/-- Claim C1: for target and source paths that both exist, with `M` the
newest modification time among the files of the target tree: if every file
of the source tree has mtime at most `M` then `is_stale target source` is
false, and if some file of the source tree is strictly newer than `M` then
it is true.  (Modification times of real files are non-negative.) -/
theorem is_stale_iff_newer_source (fs : FS) (target source : List String)
    (M : Int) (hpos : ∀ f ∈ fs.files, 0 ≤ f.2)
    (hT : fs.pathExists target = true) (hS : fs.pathExists source = true)
    (hmem : M ∈ treeMtimes fs target)
    (hmax : ∀ x ∈ treeMtimes fs target, x ≤ M) :
    ((∀ m ∈ treeMtimes fs source, m ≤ M) →
        is_stale fs target source = false) ∧
    ((∃ m ∈ treeMtimes fs source, M < m) →
        is_stale fs target source = true) := by
  have hr : recursive_mtime fs target true = M :=
    recursive_mtime_eq_max fs target M hpos hmem hmax
  have hcut : (if recursive_mtime fs target true = 0 then (0 : Int)
      else recursive_mtime fs target true) = M := by
    rw [hr]
    by_cases h0 : M = 0
    · rw [if_pos h0, h0]
    · rw [if_neg h0]
  have hkey : is_stale fs target source = true ↔
      ∃ m ∈ treeMtimes fs source, M < m := by
    unfold is_stale
    rw [hS, hT]
    simp only [Bool.not_true, Bool.false_eq_true, if_false]
    rw [hcut]
    exact compare_recursive_mtime_iff fs source M
  constructor
  · intro hall
    cases h : is_stale fs target source with
    | false => rfl
    | true =>
      exfalso
      rcases hkey.mp h with ⟨m, hm, hlt⟩
      exact absurd (hall m hm) (not_le.mpr hlt)
  · exact hkey.mpr

def fsC1 : FS := ⟨[(["t", "o"], 5), (["s", "i"], 7)], [["t"], ["s"]]⟩

theorem is_stale_iff_newer_source_witness : is_stale fsC1 ["t"] ["s"] = true :=
  (is_stale_iff_newer_source fsC1 ["t"] ["s"] 5 (by decide) (by decide)
      (by decide) (by decide) (by decide)).2 ⟨7, by decide, by decide⟩

/-- Claim C2: `is_stale` is false whenever the source path does not exist,
and true whenever the source exists but the target does not. -/
theorem is_stale_missing_paths (fs : FS) (target source : List String) :
    (fs.pathExists source = false → is_stale fs target source = false) ∧
    (fs.pathExists source = true → fs.pathExists target = false →
        is_stale fs target source = true) := by
  constructor
  · intro h
    unfold is_stale
    rw [h]
    simp
  · intro hs ht
    unfold is_stale
    rw [hs, ht]
    simp

def fsC2 : FS := ⟨[(["s", "i"], 4)], [["s"]]⟩

theorem is_stale_missing_paths_witness :
    is_stale fsC2 ["t"] ["x"] = false ∧ is_stale fsC2 ["t"] ["s"] = true :=
  ⟨(is_stale_missing_paths fsC2 ["t"] ["x"]).1 (by decide),
   (is_stale_missing_paths fsC2 ["t"] ["s"]).2 (by decide) (by decide)⟩

/-- Claim C10: an existing target whose tree contains no files yields a
`recursive_mtime` of `-1`, which is used verbatim as the cutoff (the
`or 0` replacement only fires on an exact zero), so any existing source
tree containing a file with non-negative mtime makes `is_stale` true. -/
theorem is_stale_empty_target (fs : FS) (target source : List String)
    (m : Int) (hT : fs.pathExists target = true)
    (hS : fs.pathExists source = true)
    (hempty : treeMtimes fs target = [])
    (hm : m ∈ treeMtimes fs source) (hmnn : 0 ≤ m) :
    recursive_mtime fs target true = -1 ∧ is_stale fs target source = true := by
  have hnf : fs.isFile target = false := by
    cases hb : fs.isFile target with
    | false => rfl
    | true =>
      exfalso
      unfold treeMtimes at hempty
      rw [if_pos hb] at hempty
      exact List.cons_ne_nil _ _ hempty
  have hwalk : fs.walkFiles target = [] := by
    unfold treeMtimes at hempty
    rw [if_neg (by rw [hnf]; exact Bool.false_ne_true)] at hempty
    exact hempty
  have hr : recursive_mtime fs target true = -1 := by
    unfold recursive_mtime
    rw [if_neg (by rw [hnf]; exact Bool.false_ne_true), hwalk]
    rfl
  refine ⟨hr, ?_⟩
  unfold is_stale
  rw [hS, hT]
  simp only [Bool.not_true, Bool.false_eq_true, if_false]
  rw [hr]
  norm_num
  exact (compare_recursive_mtime_iff fs source (-1)).mpr ⟨m, hm, by omega⟩

def fsC10 : FS := ⟨[(["s", "i"], 0)], [["t"], ["s"]]⟩

theorem is_stale_empty_target_witness :
    recursive_mtime fsC10 ["t"] true = -1 ∧ is_stale fsC10 ["t"] ["s"] = true :=
  is_stale_empty_target fsC10 ["t"] ["s"] 0 (by decide) (by decide)
    (by decide) (by decide) (by decide)

/-! ### Process environment and the orchestrator -/

/-- The ambient process state `npm_builder` reads: the filesystem, the
global argument list `sys.argv`, the environment variables, and the
executables `shutil.which` can discover on the execution path
(name paired with the path `which` reports). -/
structure World where
  fs : FS
  argv : List String
  env : List (String × String)
  pathExecs : List (String × String)
deriving DecidableEq

/-- `os.environ.get k`. -/
def envGet (w : World) (k : String) : Option String :=
  (w.env.find? (fun kv => kv.1 == k)).map (fun kv => kv.2)

/-- `shutil.which name`. -/
def which (w : World) (name : String) : Option String :=
  (w.pathExecs.find? (fun kv => kv.1 == name)).map (fun kv => kv.2)

/-- `Path(s).is_absolute()` on a POSIX host: the string starts with `/`. -/
def isAbsolute (s : String) : Bool :=
  match s.data with
  | [] => false
  | c :: _ => c == '/'

/-- The message of the `ValueError` raised by `normalize_cmd`. -/
def notFoundMsg (c : String) : String :=
  "Aborting. Could not find cmd (" ++ c ++ ") in path. " ++
    "If command is not expected to be in user's path, " ++
    "use an absolute path."

/-- The token-level part of `utils.normalize_cmd`: a non-absolute first
token is resolved through the execution path, and an unresolvable one
raises `ValueError` (modelled as `Except.error`); `cmd[0]` on an empty
token list raises `IndexError`. -/
def normalize_tokens (w : World) : List String → Except String (List String)
  | [] => Except.error "list index out of range"
  | c0 :: rest =>
    if isAbsolute c0 then Except.ok (c0 :: rest)
    else
      match which w c0 with
      | some cp => Except.ok (cp :: rest)
      | none => Except.error (notFoundMsg c0)

/-- `utils.normalize_cmd`.  A bare string is first split into tokens by the
host's shell-quoting rules; the splitter is abstracted as a parameter.  A
list is taken as its tokens directly. -/
def normalize_cmd (shlexSplit : String → List String) (w : World) :
    Sum String (List String) → Except String (List String)
  | Sum.inl s => normalize_tokens w (shlexSplit s)
  | Sum.inr l => normalize_tokens w l

/-- `utils.run`: normalizes the command and hands it to the subprocess; the
returned value is the exact command line executed.  A normalization error
surfaces before any subprocess starts. -/
def run (shlexSplit : String → List String) (w : World)
    (cmd : Sum String (List String)) : Except String (List String) :=
  normalize_cmd shlexSplit w cmd

/-- Python truthiness of an `Optional[str]`: `None` and `""` are falsy. -/
def strTruthy : Option String → Bool
  | none => false
  | some s => !(s == "")

/-- The skip-npm command line flag. -/
def skipFlag : String := "--skip-npm"

/-- The skip-npm environment variable. -/
def skipEnvVar : String := "HATCH_JUPYTER_BUILDER_SKIP_NPM"

/-- The warning logged when a yarn lockfile is present but yarn is not. -/
def yarnWarning : String := "yarn not found, ignoring yarn.lock file"

/-- Lines 85-94 of `utils.npm_builder`: the default tool detection when no
explicit tool is given.  Returns the chosen command and the warnings
logged. -/
def resolveDefaultTool (w : World) (absPath : List String) :
    List String × List String :=
  let is_yarn0 := w.fs.pathExists (absPath ++ ["yarn.lock"])
  let yarnFound := (which w "yarn").isSome
  (if is_yarn0 && yarnFound then ["yarn"] else ["npm"],
   if is_yarn0 && !yarnFound then [yarnWarning] else [])

/-- Lines 62-68: the global skip signal (flag in `sys.argv` or environment
variable set to `"1"`). -/
def skipSignal (w : World) : Bool :=
  w.argv.contains skipFlag || (envGet w skipEnvVar == some "1")

/-- Lines 62-72: the full skip decision, including the implicit skip of a
wheel build outside a git checkout without `force`. -/
def skipDecision (w : World) (target_name : String) (path : List String)
    (force : Bool) : Bool :=
  skipSignal w ||
    (target_name == "wheel" && !(w.fs.pathExists (path ++ [".git"])) && !force)

/-- Lines 65-66: `sys.argv.remove("--skip-npm")` fires exactly when the flag
is present (removing the first occurrence); otherwise `sys.argv` is left
unchanged. -/
def argvAfterSkip (w : World) : List String :=
  if w.argv.contains skipFlag then w.argv.erase skipFlag else w.argv

/-- Lines 78-79: the effective build command after the editable override
(`editable_build_cmd or build_cmd`). -/
def effectiveBuildCmd (version : String)
    (build_cmd editable_build_cmd : Option String) : Option String :=
  if version == "editable" then
    (if strTruthy editable_build_cmd then editable_build_cmd else build_cmd)
  else build_cmd

/-- Lines 81-94: the tool command handed to `normalize_cmd` (a string is
wrapped into a one-element list, a list is taken verbatim, otherwise the
default detection runs), together with the warnings logged. -/
def toolSpec (w : World) (absPath : List String)
    (npm : Option (Sum String (List String))) : List String × List String :=
  match npm with
  | some (Sum.inl s) => ([s], [])
  | some (Sum.inr l) => (l, [])
  | none => resolveDefaultTool w absPath

/-- Lines 98-101: build when the staleness gate does not suppress it. -/
def shouldBuildFlag (fs : FS) (build_dir source_dir : Option (List String))
    (force : Bool) : Bool :=
  match build_dir, source_dir, force with
  | some bd, some sd, false => is_stale fs bd sd
  | _, _, _ => true

/-- Lines 103-107: the two `run` invocations (`<tool> install`, then
`<tool> run <build_cmd>` when a build command is set). -/
def buildCommands (shlexSplit : String → List String) (w : World)
    (npm_cmd : List String) (bc : Option String) :
    Except String (List (List String)) :=
  match run shlexSplit w (Sum.inr (npm_cmd ++ ["install"])) with
  | Except.error e => Except.error e
  | Except.ok c1 =>
    if strTruthy bc then
      match run shlexSplit w (Sum.inr (npm_cmd ++ ["run", bc.getD ""])) with
      | Except.error e => Except.error e
      | Except.ok c2 => Except.ok [c1, c2]
    else Except.ok [c1]

/-- The observable outcome of one `npm_builder` call: the command lines
executed in order, the final `sys.argv`, and the warnings logged. -/
structure BuildEffects where
  cmds : List (List String)
  argv : List String
  warnings : List String
deriving DecidableEq

/-- `utils.npm_builder`.  `path` is the already-resolved absolute base path;
a raised `ValueError` is `Except.error`.  Faithful to the source order:
skip handling, editable override, tool resolution, `normalize_cmd`, then
the staleness gate and the `run` calls. -/
def npm_builder (shlexSplit : String → List String) (w : World)
    (target_name version : String) (path : List String)
    (build_dir source_dir : Option (List String)) (build_cmd : Option String)
    (force : Bool) (npm : Option (Sum String (List String)))
    (editable_build_cmd : Option String) : Except String BuildEffects :=
  if skipDecision w target_name path force then
    Except.ok ⟨[], argvAfterSkip w, []⟩
  else
    match normalize_cmd shlexSplit w (Sum.inr (toolSpec w path npm).1) with
    | Except.error e => Except.error e
    | Except.ok npm_cmd =>
      if shouldBuildFlag w.fs build_dir source_dir force then
        match buildCommands shlexSplit w npm_cmd
            (effectiveBuildCmd version build_cmd editable_build_cmd) with
        | Except.error e => Except.error e
        | Except.ok cs => Except.ok ⟨cs, argvAfterSkip w, (toolSpec w path npm).2⟩
      else Except.ok ⟨[], argvAfterSkip w, (toolSpec w path npm).2⟩

/-- `utils.ensure_targets`: the message of the error raised on the first
missing target. -/
def ensureMsg (t : List String) : String :=
  "Ensured target \"" ++ String.intercalate "/" t ++ "\" does not exist"

/-- `utils.ensure_targets`. -/
def ensure_targets (fs : FS) : List (List String) → Except String Unit
  | [] => Except.ok ()
  | t :: rest =>
    if fs.pathExists t then ensure_targets fs rest
    else Except.error (ensureMsg t)

/-! ### Auxiliary lemmas on the orchestrator -/

lemma list_contains_iff_mem (l : List String) (a : String) :
    l.contains a = true ↔ a ∈ l := by
  unfold List.contains
  exact List.elem_iff

lemma normalize_tokens_ok (w : World) (l r : List String)
    (hr : normalize_tokens w l = Except.ok r) :
    ∃ h t h2, l = h :: t ∧ r = h2 :: t ∧
      ((isAbsolute h = true ∧ h2 = h) ∨
       (isAbsolute h = false ∧ which w h = some h2)) := by
  cases l with
  | nil => exact absurd hr (by simp [normalize_tokens])
  | cons h t =>
    unfold normalize_tokens at hr
    dsimp only at hr
    by_cases habs : isAbsolute h = true
    · rw [if_pos habs] at hr
      exact ⟨h, t, h, rfl, (Except.ok.inj hr).symm, Or.inl ⟨habs, rfl⟩⟩
    · rw [if_neg habs] at hr
      have habs2 : isAbsolute h = false := by simpa using habs
      cases hw : which w h with
      | none => rw [hw] at hr; exact absurd hr (by simp)
      | some cp =>
        rw [hw] at hr
        exact ⟨h, t, cp, rfl, (Except.ok.inj hr).symm, Or.inr ⟨habs2, hw⟩⟩

lemma normalize_cmd_inr_ok (split : String → List String) (w : World)
    (l r : List String)
    (hr : normalize_cmd split w (Sum.inr l) = Except.ok r) :
    ∃ h t h2, l = h :: t ∧ r = h2 :: t ∧
      ((isAbsolute h = true ∧ h2 = h) ∨
       (isAbsolute h = false ∧ which w h = some h2)) :=
  normalize_tokens_ok w l r hr

lemma buildCommands_ok_ne_nil (split : String → List String) (w : World)
    (npc : List String) (bc : Option String) (cs : List (List String))
    (hok : buildCommands split w npc bc = Except.ok cs) : cs ≠ [] := by
  unfold buildCommands at hok
  split at hok
  · exact absurd hok (by simp)
  · split at hok
    · split at hok
      · exact absurd hok (by simp)
      · obtain rfl := Except.ok.inj hok
        simp
    · obtain rfl := Except.ok.inj hok
      simp

lemma buildCommands_ok_pair (split : String → List String) (w : World)
    (h : String) (t : List String) (bc : Option String)
    (cs : List (List String)) (hstr : strTruthy bc = true)
    (hok : buildCommands split w (h :: t) bc = Except.ok cs) :
    ∃ h2, cs = [h2 :: (t ++ ["install"]), h2 :: (t ++ ["run", bc.getD ""])] := by
  unfold buildCommands at hok
  split at hok
  · exact absurd hok (by simp)
  · rename_i c1 heq1
    rw [hstr, if_pos rfl] at hok
    split at hok
    · exact absurd hok (by simp)
    · rename_i c2 heq2
      obtain rfl := Except.ok.inj hok
      unfold run at heq1 heq2
      obtain ⟨h1, t1, g1, hcons1, hc1, hcase1⟩ :=
        normalize_cmd_inr_ok split w _ _ heq1
      obtain ⟨h2, t2, g2, hcons2, hc2, hcase2⟩ :=
        normalize_cmd_inr_ok split w _ _ heq2
      rw [List.cons_append] at hcons1 hcons2
      injection hcons1 with hh1 ht1
      injection hcons2 with hh2 ht2
      subst hh1 ht1 hh2 ht2 hc1 hc2
      rcases hcase1 with ⟨ha1, rfl⟩ | ⟨ha1, hw1⟩
      · rcases hcase2 with ⟨ha2, rfl⟩ | ⟨ha2, hw2⟩
        · exact ⟨_, rfl⟩
        · rw [ha1] at ha2; exact absurd ha2 (by simp)
      · rcases hcase2 with ⟨ha2, rfl⟩ | ⟨ha2, hw2⟩
        · rw [ha1] at ha2; exact absurd ha2 (by simp)
        · obtain rfl : g1 = g2 := Option.some.inj (hw1.symm.trans hw2)
          exact ⟨_, rfl⟩

lemma npm_builder_ok_cmds_iff (split : String → List String) (w : World)
    (tn v : String) (p : List String) (bd sd : Option (List String))
    (bc : Option String) (f : Bool)
    (npmArg : Option (Sum String (List String))) (ebc : Option String)
    (eff : BuildEffects)
    (hskip : skipDecision w tn p f = false)
    (heff : npm_builder split w tn v p bd sd bc f npmArg ebc = Except.ok eff) :
    (eff.cmds ≠ [] ↔ shouldBuildFlag w.fs bd sd f = true) := by
  unfold npm_builder at heff
  rw [hskip] at heff
  rw [if_neg (by simp)] at heff
  split at heff
  · exact absurd heff (by simp)
  · rename_i npm_cmd hnorm
    by_cases hsb : shouldBuildFlag w.fs bd sd f = true
    · rw [hsb, if_pos rfl] at heff
      split at heff
      · exact absurd heff (by simp)
      · rename_i cs hcs
        obtain rfl := Except.ok.inj heff
        simp only [hsb, iff_true]
        exact buildCommands_ok_ne_nil split w npm_cmd _ cs hcs
    · have hsb2 : shouldBuildFlag w.fs bd sd f = false := by simpa using hsb
      rw [hsb2, if_neg (by simp)] at heff
      obtain rfl := Except.ok.inj heff
      simp [hsb2]

/-- Claim C3: for a call that reaches the build decision (no skip applies)
and completes without raising: with both directories given and `force`
false, the external tool is invoked exactly when `is_stale build_dir
source_dir` is true (in particular, a false staleness check means no
subprocess invocation at all); with a directory missing or `force` true it
is always invoked. -/
theorem npm_builder_staleness_gate (split : String → List String) (w : World)
    (tn v : String) (p : List String) (bd sd : Option (List String))
    (bc : Option String) (f : Bool)
    (npmArg : Option (Sum String (List String))) (ebc : Option String)
    (eff : BuildEffects)
    (hskip : skipDecision w tn p f = false)
    (heff : npm_builder split w tn v p bd sd bc f npmArg ebc = Except.ok eff) :
    (∀ b s, bd = some b → sd = some s → f = false →
        (eff.cmds ≠ [] ↔ is_stale w.fs b s = true)) ∧
    ((bd = none ∨ sd = none ∨ f = true) → eff.cmds ≠ []) := by
  have hiff := npm_builder_ok_cmds_iff split w tn v p bd sd bc f npmArg ebc
    eff hskip heff
  constructor
  · intro b s hb hs hf
    subst hb; subst hs; subst hf
    rw [hiff]
    rfl
  · intro hcase
    rw [hiff]
    rcases hcase with rfl | rfl | rfl
    · cases sd <;> cases f <;> rfl
    · cases bd <;> cases f <;> rfl
    · cases bd <;> cases sd <;> rfl

def noSplit : String → List String := fun _ => []

def wC3 : World :=
  ⟨⟨[(["bd", "o"], 10), (["sd", "i"], 5)], [["bd"], ["sd"]]⟩,
   [], [], [("npm", "/usr/bin/npm")]⟩

def effEmpty : BuildEffects := ⟨[], [], []⟩

theorem npm_builder_staleness_gate_witness :
    (effEmpty.cmds ≠ [] ↔ is_stale wC3.fs ["bd"] ["sd"] = true) :=
  (npm_builder_staleness_gate noSplit wC3 "sdist" "standard" ["p"]
      (some ["bd"]) (some ["sd"]) (some "build") false none none effEmpty
      (by decide) (by rfl)).1 ["bd"] ["sd"] rfl rfl rfl

def wC4 : World :=
  ⟨⟨[(["bd", "o"], 10), (["sd", "i"], 5)],
    [["proj"], ["proj", ".git"], ["bd"], ["sd"]]⟩,
   [], [], [("npm", "/usr/bin/npm")]⟩

/-- Claim C4 counterexample: a "wheel" build on a git checkout with no skip
signal, both directories given, `force` false and a target newer than the
source completes successfully with no command attempted, so install+build
is not always attempted under these conditions. -/
theorem npm_builder_wheel_git_fresh_target_no_install :
    wC4.fs.pathExists (["proj"] ++ [".git"]) = true ∧
    skipSignal wC4 = false ∧
    npm_builder noSplit wC4 "wheel" "standard" ["proj"] (some ["bd"])
        (some ["sd"]) (some "build") false none none =
      Except.ok ⟨[], [], []⟩ :=
  ⟨by decide, by decide, by rfl⟩

/-- Claim C4 (amended): for a "wheel" build on a version-controlled base
path with no skip signal, whenever the staleness gate does not suppress the
build (in particular always when `build_dir` or `source_dir` is unset), an
effective build command is set and the call completes without error, the
install command and the build command are both attempted, regardless of
`force`. -/
theorem npm_builder_wheel_git_builds (split : String → List String)
    (w : World) (tn v : String) (p : List String)
    (bd sd : Option (List String)) (bc : Option String) (f : Bool)
    (npmArg : Option (Sum String (List String))) (ebc : Option String)
    (eff : BuildEffects)
    (htn : tn = "wheel")
    (hgit : w.fs.pathExists (p ++ [".git"]) = true)
    (hsig : skipSignal w = false)
    (hgate : shouldBuildFlag w.fs bd sd f = true)
    (hbc : strTruthy (effectiveBuildCmd v bc ebc) = true)
    (heff : npm_builder split w tn v p bd sd bc f npmArg ebc = Except.ok eff) :
    ∃ tool, eff.cmds =
      [tool ++ ["install"],
       tool ++ ["run", (effectiveBuildCmd v bc ebc).getD ""]] := by
  subst htn
  have hskip : skipDecision w "wheel" p f = false := by
    unfold skipDecision
    rw [hsig, hgit]
    simp
  unfold npm_builder at heff
  rw [hskip] at heff
  rw [if_neg (by simp)] at heff
  split at heff
  · exact absurd heff (by simp)
  · rename_i npm_cmd hnorm
    rw [hgate, if_pos rfl] at heff
    split at heff
    · exact absurd heff (by simp)
    · rename_i cs hcs
      obtain rfl := Except.ok.inj heff
      obtain ⟨h0, t0, h2, hcons, hnc, hcase⟩ :=
        normalize_cmd_inr_ok split w _ _ hnorm
      subst hnc
      obtain ⟨g, hg⟩ := buildCommands_ok_pair split w h2 t0 _ _ hbc hcs
      exact ⟨g :: t0, hg⟩

def wC4b : World :=
  ⟨⟨[(["bd", "o"], 5), (["sd", "i"], 10)],
    [["proj"], ["proj", ".git"], ["bd"], ["sd"]]⟩,
   [], [], [("npm", "/usr/bin/npm")]⟩

def effC4 : BuildEffects :=
  ⟨[["/usr/bin/npm", "install"], ["/usr/bin/npm", "run", "build"]], [], []⟩

theorem npm_builder_wheel_git_builds_witness :
    ∃ tool, effC4.cmds =
      [tool ++ ["install"],
       tool ++ ["run", (effectiveBuildCmd "standard" (some "build") none).getD ""]] :=
  npm_builder_wheel_git_builds noSplit wC4b "wheel" "standard" ["proj"]
    (some ["bd"]) (some ["sd"]) (some "build") false none none effC4
    rfl (by decide) (by decide) (by decide) (by decide) (by rfl)

/-- Claim C5: a "wheel" build with `force` false on a base path that has no
`.git` marker returns without any tool invocation and without error,
whatever the remaining configuration. -/
theorem npm_builder_wheel_no_git_skips (split : String → List String)
    (w : World) (v : String) (p : List String)
    (bd sd : Option (List String)) (bc : Option String)
    (npmArg : Option (Sum String (List String))) (ebc : Option String)
    (hgit : w.fs.pathExists (p ++ [".git"]) = false) :
    ∃ eff, npm_builder split w "wheel" v p bd sd bc false npmArg ebc =
        Except.ok eff ∧ eff.cmds = [] := by
  refine ⟨⟨[], argvAfterSkip w, []⟩, ?_, rfl⟩
  have hskip : skipDecision w "wheel" p false = true := by
    unfold skipDecision
    rw [hgit]
    simp
  unfold npm_builder
  rw [hskip, if_pos rfl]

def wC5 : World := ⟨⟨[], [["proj"]]⟩, [], [], []⟩

theorem npm_builder_wheel_no_git_skips_witness :
    ∃ eff, npm_builder noSplit wC5 "wheel" "standard" ["proj"] none none
        (some "build") false none none = Except.ok eff ∧ eff.cmds = [] :=
  npm_builder_wheel_no_git_skips noSplit wC5 "standard" ["proj"] none none
    (some "build") none none (by decide)

/-- Claim C6: when the skip environment variable is `"1"` or the
`--skip-npm` flag is in the global argument list, the call logs and
returns with no tool invocation and no error; a present flag has its
first occurrence removed with the rest of the argument list unchanged,
and an absent flag leaves the argument list untouched. -/
theorem npm_builder_skip_signal (split : String → List String) (w : World)
    (tn v : String) (p : List String) (bd sd : Option (List String))
    (bc : Option String) (f : Bool)
    (npmArg : Option (Sum String (List String))) (ebc : Option String)
    (hsig : envGet w skipEnvVar = some "1" ∨ skipFlag ∈ w.argv) :
    ∃ eff, npm_builder split w tn v p bd sd bc f npmArg ebc =
        Except.ok eff ∧ eff.cmds = [] ∧
      (skipFlag ∈ w.argv →
        ∃ l1 l2, w.argv = l1 ++ skipFlag :: l2 ∧ skipFlag ∉ l1 ∧
          eff.argv = l1 ++ l2) ∧
      (skipFlag ∉ w.argv → eff.argv = w.argv) := by
  have hsig2 : skipSignal w = true := by
    unfold skipSignal
    rcases hsig with h | h
    · rw [h]
      simp
    · rw [(list_contains_iff_mem w.argv skipFlag).mpr h]
      simp
  have hskip : skipDecision w tn p f = true := by
    unfold skipDecision
    rw [hsig2]
    simp
  refine ⟨⟨[], argvAfterSkip w, []⟩, ?_, rfl, ?_, ?_⟩
  · unfold npm_builder
    rw [hskip, if_pos rfl]
  · intro hmem
    obtain ⟨l1, l2, hnot, hsplit2, herase⟩ := List.exists_erase_eq hmem
    refine ⟨l1, l2, hsplit2, hnot, ?_⟩
    show argvAfterSkip w = l1 ++ l2
    unfold argvAfterSkip
    have hc : w.argv.contains skipFlag = true :=
      (list_contains_iff_mem _ _).mpr hmem
    rw [hc, if_pos rfl]
    exact herase
  · intro hnmem
    show argvAfterSkip w = w.argv
    unfold argvAfterSkip
    have hc : w.argv.contains skipFlag = false := by
      cases hcc : w.argv.contains skipFlag
      · rfl
      · exact absurd ((list_contains_iff_mem _ _).mp hcc) hnmem
    rw [hc, if_neg (by simp)]

def wC6 : World := ⟨⟨[], []⟩, ["prog", "--skip-npm", "x"], [], []⟩

theorem npm_builder_skip_signal_witness :
    ∃ eff, npm_builder noSplit wC6 "sdist" "standard" ["p"] none none
        (some "build") false none none = Except.ok eff ∧ eff.cmds = [] ∧
      (skipFlag ∈ wC6.argv →
        ∃ l1 l2, wC6.argv = l1 ++ skipFlag :: l2 ∧ skipFlag ∉ l1 ∧
          eff.argv = l1 ++ l2) ∧
      (skipFlag ∉ wC6.argv → eff.argv = wC6.argv) :=
  npm_builder_skip_signal noSplit wC6 "sdist" "standard" ["p"] none none
    (some "build") false none none (Or.inr (by decide))

/-- Claim C7: with no explicit tool override, the default tool is
`["yarn"]` exactly when a `yarn.lock` exists in the base path and `yarn` is
discoverable on the execution path; otherwise it is `["npm"]`, and when the
lockfile is present but yarn is undiscoverable the fallback records a
warning and raises no error. -/
theorem resolveDefaultTool_spec (w : World) (p : List String) :
    (w.fs.pathExists (p ++ ["yarn.lock"]) = true →
        (which w "yarn").isSome = true →
        (resolveDefaultTool w p).1 = ["yarn"]) ∧
    ((w.fs.pathExists (p ++ ["yarn.lock"]) = false ∨
        (which w "yarn").isSome = false) →
        (resolveDefaultTool w p).1 = ["npm"]) ∧
    (w.fs.pathExists (p ++ ["yarn.lock"]) = true →
        (which w "yarn").isSome = false →
        (resolveDefaultTool w p).2 = [yarnWarning]) := by
  refine ⟨?_, ?_, ?_⟩
  · intro h1 h2
    simp [resolveDefaultTool, h1, h2]
  · intro h
    rcases h with h | h
    · simp [resolveDefaultTool, h]
    · simp [resolveDefaultTool, h]
  · intro h1 h2
    simp [resolveDefaultTool, h1, h2]

def wC7 : World := ⟨⟨[(["proj", "yarn.lock"], 1)], [["proj"]]⟩, [], [], []⟩

theorem resolveDefaultTool_spec_witness :
    (resolveDefaultTool wC7 ["proj"]).1 = ["npm"] ∧
    (resolveDefaultTool wC7 ["proj"]).2 = [yarnWarning] :=
  ⟨(resolveDefaultTool_spec wC7 ["proj"]).2.1 (Or.inr (by decide)),
   (resolveDefaultTool_spec wC7 ["proj"]).2.2 (by decide) (by decide)⟩

/-- The token list `normalize_cmd` operates on: the host shell-quoting
split of a string, or a list taken verbatim. -/
def cmdTokens (shlexSplit : String → List String) :
    Sum String (List String) → List String
  | Sum.inl s => shlexSplit s
  | Sum.inr l => l

/-- Claim C8: a string command is first split into tokens by host
shell-quoting rules (the abstract `shlexSplit`); if the first token is not
an absolute path and the path search cannot resolve it, the operation
fails with the `ValueError` message naming the missing command, and `run`
fails identically before any subprocess command is produced; an absolute
first token can produce no resolution failure. -/
theorem normalize_cmd_resolution (shlexSplit : String → List String)
    (w : World) (cmd : Sum String (List String)) (c0 : String)
    (rest : List String)
    (htoks : cmdTokens shlexSplit cmd = c0 :: rest) :
    (isAbsolute c0 = false → which w c0 = none →
        normalize_cmd shlexSplit w cmd = Except.error (notFoundMsg c0) ∧
        run shlexSplit w cmd = Except.error (notFoundMsg c0)) ∧
    (isAbsolute c0 = true →
        normalize_cmd shlexSplit w cmd = Except.ok (c0 :: rest)) := by
  have hnc : normalize_cmd shlexSplit w cmd = normalize_tokens w (c0 :: rest) := by
    cases cmd with
    | inl s =>
      have htoks2 : shlexSplit s = c0 :: rest := htoks
      show normalize_tokens w (shlexSplit s) = normalize_tokens w (c0 :: rest)
      rw [htoks2]
    | inr l =>
      have htoks2 : l = c0 :: rest := htoks
      show normalize_tokens w l = normalize_tokens w (c0 :: rest)
      rw [htoks2]
  constructor
  · intro habs hw
    have herr : normalize_tokens w (c0 :: rest) =
        Except.error (notFoundMsg c0) := by
      show (if isAbsolute c0 = true then Except.ok (c0 :: rest)
          else match which w c0 with
            | some cp => Except.ok (cp :: rest)
            | none => Except.error (notFoundMsg c0)) =
        Except.error (notFoundMsg c0)
      rw [habs, if_neg (by simp), hw]
    exact ⟨hnc.trans herr, hnc.trans herr⟩
  · intro habs
    rw [hnc]
    show (if isAbsolute c0 = true then Except.ok (c0 :: rest)
        else match which w c0 with
          | some cp => Except.ok (cp :: rest)
          | none => Except.error (notFoundMsg c0)) = Except.ok (c0 :: rest)
    rw [habs, if_pos rfl]

def wC8 : World := ⟨⟨[], []⟩, [], [], []⟩

def splitC8 : String → List String := fun s => [s]

theorem normalize_cmd_resolution_witness :
    normalize_cmd splitC8 wC8 (Sum.inl "nosuchtool") =
        Except.error (notFoundMsg "nosuchtool") ∧
    run splitC8 wC8 (Sum.inl "nosuchtool") =
        Except.error (notFoundMsg "nosuchtool") :=
  (normalize_cmd_resolution splitC8 wC8 (Sum.inl "nosuchtool") "nosuchtool"
    [] (by rfl)).1 (by decide) (by rfl)

/-- Claim C9: `ensure_targets` returns with no effect when every path
exists on disk, and raises a `ValueError` whose message names a missing
path when some path does not exist. -/
theorem ensure_targets_spec (fs : FS) (ts : List (List String)) :
    ((∀ t ∈ ts, fs.pathExists t = true) →
        ensure_targets fs ts = Except.ok ()) ∧
    ((∃ t ∈ ts, fs.pathExists t = false) →
        ∃ t, t ∈ ts ∧ fs.pathExists t = false ∧
          ensure_targets fs ts = Except.error (ensureMsg t)) := by
  induction ts with
  | nil =>
    refine ⟨fun _ => rfl, ?_⟩
    rintro ⟨t, ht, _⟩
    exact absurd ht (List.not_mem_nil _)
  | cons t rest ih =>
    constructor
    · intro h
      have ht : fs.pathExists t = true := h t (List.mem_cons_self t rest)
      show (if fs.pathExists t then ensure_targets fs rest
          else Except.error (ensureMsg t)) = Except.ok ()
      rw [ht, if_pos rfl]
      exact ih.1 (fun y hy => h y (List.mem_cons_of_mem t hy))
    · rintro ⟨x, hx, hxf⟩
      by_cases hthead : fs.pathExists t = true
      · have hxr : x ∈ rest := by
          rcases List.mem_cons.mp hx with rfl | hr2
          · rw [hthead] at hxf
            exact absurd hxf (by simp)
          · exact hr2
        obtain ⟨y, hy, hyf, hres⟩ := ih.2 ⟨x, hxr, hxf⟩
        refine ⟨y, List.mem_cons_of_mem t hy, hyf, ?_⟩
        show (if fs.pathExists t then ensure_targets fs rest
            else Except.error (ensureMsg t)) = Except.error (ensureMsg y)
        rw [hthead, if_pos rfl]
        exact hres
      · have htf : fs.pathExists t = false := by simpa using hthead
        refine ⟨t, List.mem_cons_self t rest, htf, ?_⟩
        show (if fs.pathExists t then ensure_targets fs rest
            else Except.error (ensureMsg t)) = Except.error (ensureMsg t)
        rw [htf, if_neg (by simp)]

def fsC9 : FS := ⟨[(["a"], 1)], []⟩

theorem ensure_targets_spec_witness :
    ensure_targets fsC9 [["a"]] = Except.ok () ∧
    (∃ t, t ∈ [["a"], ["missing"]] ∧ fsC9.pathExists t = false ∧
      ensure_targets fsC9 [["a"], ["missing"]] =
        Except.error (ensureMsg t)) :=
  ⟨(ensure_targets_spec fsC9 [["a"]]).1 (by decide),
   (ensure_targets_spec fsC9 [["a"], ["missing"]]).2
     ⟨["missing"], by decide, by decide⟩⟩
